import Mathlib

/-!
Shallow embedding of `pymeasure/instruments/nanovna/nanovna.py`.

Python strings are modelled as `List Char` (`Str`), Python `str.replace`,
`str.split` and `str.join` as `replaceStr`, `splitStr` and `joinStr` with
Python's leftmost, non-overlapping scan semantics, Python/numpy float values
as exact rationals (`ℚ`), failure (a raised exception) as `none`, and the
serial channel as an oracle `ask : Str → Option Str` mapping each issued
command to the scrubbed reply text (or `none` when the ask raises).
-/

set_option linter.unusedVariables false

abbrev Str := List Char

namespace Nanovna

/-- Tests whether the first argument is a prefix of the second, by direct scan. -/
def startsWith : Str → Str → Bool
  | [], _ => true
  | _ :: _, [] => false
  | p :: ps, c :: cs => p == c && startsWith ps cs

/-- Tests whether `pat` occurs as a contiguous substring anywhere in the string,
the occurrence check Python's `in`, `str.replace` and `str.split` scans perform. -/
def containsSub (pat : Str) : Str → Bool
  | [] => startsWith pat []
  | c :: cs => startsWith pat (c :: cs) || containsSub pat cs

/-- Models Python `s.replace(old, new)`: leftmost, non-overlapping occurrences of
`old` are replaced by `new`.  (The source only calls it with nonempty `old`.) -/
def replaceStr (old new : Str) (s : Str) : Str :=
  match s with
  | [] => []
  | c :: cs =>
    if h : startsWith old (c :: cs) = true ∧ old ≠ [] then
      new ++ replaceStr old new ((c :: cs).drop old.length)
    else
      c :: replaceStr old new cs
termination_by s.length
decreasing_by
  · simp only [List.length_drop, List.length_cons]
    have : 0 < old.length := List.length_pos.mpr h.2
    omega
  · simp

/-- Models Python `s.split(sep)` for nonempty `sep`: the string is cut at each
leftmost occurrence of `sep`; `"".split(sep) = [""]`. -/
def splitStr (sep : Str) (s : Str) : List Str :=
  match s with
  | [] => [[]]
  | c :: cs =>
    if h : startsWith sep (c :: cs) = true ∧ sep ≠ [] then
      [] :: splitStr sep ((c :: cs).drop sep.length)
    else
      match splitStr sep cs with
      | [] => [[c]]
      | seg :: rest => (c :: seg) :: rest
termination_by s.length
decreasing_by
  · simp only [List.length_drop, List.length_cons]
    have : 0 < sep.length := List.length_pos.mpr h.2
    omega
  · simp

/-- Models Python `sep.join(parts)`. -/
def joinStr (sep : Str) : List Str → Str
  | [] => []
  | [x] => x
  | x :: y :: rest => x ++ sep ++ joinStr sep (y :: rest)

/-- Models the class attribute `SerialAdapterWithEcho.echo_termination = '\r\n'`. -/
def echo_termination : Str := ("\r\n").data

/-- Models the prompt marker literal `'ch> '` scrubbed by `_read_echo`. -/
def prompt_marker : Str := ("ch> ").data

/-- Models `SerialAdapterWithEcho._read_echo` applied to the decoded raw frame:
`read.replace('ch> ', "").split(self.echo_termination)`, then the slice
`read[1:-1]` (modelled as `drop 1` followed by `dropLast`, which agrees with the
Python slice on every list length), then `",".join(reply)`. -/
def read_echo (raw : Str) : Str :=
  joinStr [','] (((splitStr echo_termination (replaceStr prompt_marker [] raw)).drop 1).dropLast)

/-- Takes the longest run of leading decimal digits, returning it and the rest. -/
def takeDigits : Str → Str × Str
  | [] => ([], [])
  | c :: cs =>
    if c.isDigit then
      let p := takeDigits cs
      (c :: p.1, p.2)
    else ([], c :: cs)

/-- Value of a digit string read in base 10 (empty string counts as 0). -/
def digitsVal (ds : Str) : ℕ := ds.foldl (fun n c => 10 * n + (c.toNat - 48)) 0

/-- Models Python/numpy conversion of an unsigned numeric token to a float:
digits, an optional fractional part and an optional exponent; the float value is
represented exactly as a rational.  Returns `none` on a non-numeric token. -/
def parseUnsigned (s : Str) : Option ℚ :=
  let ip := takeDigits s
  let mantAndRest : Option ℚ × Str :=
    match ip.2 with
    | '.' :: rr =>
      let fp := takeDigits rr
      (if ip.1 = [] ∧ fp.1 = [] then none
       else some ((digitsVal ip.1 : ℚ) + (digitsVal fp.1 : ℚ) / (10 : ℚ) ^ fp.1.length),
       fp.2)
    | _ => (if ip.1 = [] then none else some ((digitsVal ip.1 : ℚ)), ip.2)
  match mantAndRest with
  | (none, _) => none
  | (some m, r2) =>
    match r2 with
    | [] => some m
    | e :: rr =>
      if e = 'e' ∨ e = 'E' then
        let signAndRest : Bool × Str :=
          match rr with
          | '-' :: t => (true, t)
          | '+' :: t => (false, t)
          | _ => (false, rr)
        let ed := takeDigits signAndRest.2
        if ed.1 = [] ∨ ed.2 ≠ [] then none
        else some (if signAndRest.1 then m / (10 : ℚ) ^ digitsVal ed.1
                   else m * (10 : ℚ) ^ digitsVal ed.1)
      else none

/-- Models the conversion of one reply token to a float (`dtype=float` element
conversion): an optional sign followed by an unsigned numeric literal.
`none` models the `ValueError` numpy raises on a non-numeric token. -/
def parseFloat (s : Str) : Option ℚ :=
  match s with
  | '-' :: r => (parseUnsigned r).map (fun x => -x)
  | '+' :: r => parseUnsigned r
  | _ => parseUnsigned s

/-- Models `numpy.array(tokens, dtype=float)`: every token is converted, and a
single non-numeric token fails the whole conversion. -/
def parseFloats : List Str → Option (List ℚ)
  | [] => some []
  | t :: ts =>
    match parseFloat t, parseFloats ts with
    | some x, some xs => some (x :: xs)
    | _, _ => none

/-- Models the numpy slice `data[::2]` (elements at even indices). -/
def sliceEvens {α : Type} : List α → List α
  | [] => []
  | [x] => [x]
  | x :: _ :: rest => x :: sliceEvens rest

/-- Models the numpy slice `data[1::2]` (elements at odd indices). -/
def sliceOdds {α : Type} : List α → List α
  | [] => []
  | [_] => []
  | _ :: y :: rest => y :: sliceOdds rest

/-- Models the numpy expression `re + im * 1j` on 1-D arrays, as (real, imag)
pairs, including numpy's broadcasting rule: equal lengths pair elementwise, a
length-1 operand is stretched to the other operand's length (including length
0), and any other length mismatch raises (`none`). -/
def broadcastPairs (re im : List ℚ) : Option (List (ℚ × ℚ)) :=
  if re.length = im.length then some (re.zip im)
  else if im.length = 1 then some (re.map (fun x => (x, im.headI)))
  else if re.length = 1 then some (im.map (fun y => (re.headI, y)))
  else none

/-- Models `NanoVNA._process_frequencies`:
`array(freqs.split(","), dtype=float)`. -/
def process_frequencies (freqs : Str) : Option (List ℚ) :=
  parseFloats (splitStr [','] freqs)

/-- Models `NanoVNA._process_data`:
`data = array(data.replace(" ", ",").split(","), dtype=float)` followed by
`data[::2] + data[1::2] * 1j`. -/
def process_data (data : Str) : Option (List (ℚ × ℚ)) :=
  match parseFloats (splitStr [','] (replaceStr [' '] [','] data)) with
  | none => none
  | some xs => broadcastPairs (sliceEvens xs) (sliceOdds xs)

/-- Command string sent by `get_frequencies`. -/
def cmd_frequencies : Str := ("frequencies").data

/-- Command string sent by `get_S11_data`. -/
def cmd_data0 : Str := ("data 0").data

/-- Command string sent by `get_S21_data`. -/
def cmd_data1 : Str := ("data 1").data

/-- First command string sent by `get_cals`. -/
def cmd_data2 : Str := ("data 2").data

/-- Second command string sent by `get_cals`. -/
def cmd_data3 : Str := ("data 3").data

/-- Third command string sent by `get_cals`. -/
def cmd_data4 : Str := ("data 4").data

/-- Fourth command string sent by `get_cals`. -/
def cmd_data5 : Str := ("data 5").data

/-- Fifth command string sent by `get_cals`. -/
def cmd_data6 : Str := ("data 6").data

/-- Models `NanoVNA.get_frequencies`:
`self._process_frequencies(self.ask("frequencies"))`; a raising `ask` is
`none`. -/
def get_frequencies (ask : Str → Option Str) : Option (List ℚ) :=
  match ask cmd_frequencies with
  | none => none
  | some r => process_frequencies r

/-- Models `NanoVNA.get_S11_data`: `self._process_data(self.ask("data 0"))`. -/
def get_S11_data (ask : Str → Option Str) : Option (List (ℚ × ℚ)) :=
  match ask cmd_data0 with
  | none => none
  | some r => process_data r

/-- Models `NanoVNA.get_S21_data`: `self._process_data(self.ask("data 1"))`. -/
def get_S21_data (ask : Str → Option Str) : Option (List (ℚ × ℚ)) :=
  match ask cmd_data1 with
  | none => none
  | some r => process_data r

/-- Models `NanoVNA.get_cals`: five sequential `self._process_data(self.ask(...))`
calls for `"data 2"` .. `"data 6"`, then the dict literal
`{"load": ..., "open": ..., "short": ..., "thru": ..., "isoln": ...}` (Python
dicts preserve insertion order, so the dict is an association list).  The first
component records the commands actually issued, in order; an exception in any
step aborts the remaining steps and yields `none` (no partial map). -/
def get_cals (ask : Str → Option Str) :
    List Str × Option (List (Str × List (ℚ × ℚ))) :=
  match ask cmd_data2 with
  | none => ([cmd_data2], none)
  | some r2 =>
    match process_data r2 with
    | none => ([cmd_data2], none)
    | some cal_load =>
      match ask cmd_data3 with
      | none => ([cmd_data2, cmd_data3], none)
      | some r3 =>
        match process_data r3 with
        | none => ([cmd_data2, cmd_data3], none)
        | some cal_open =>
          match ask cmd_data4 with
          | none => ([cmd_data2, cmd_data3, cmd_data4], none)
          | some r4 =>
            match process_data r4 with
            | none => ([cmd_data2, cmd_data3, cmd_data4], none)
            | some cal_short =>
              match ask cmd_data5 with
              | none => ([cmd_data2, cmd_data3, cmd_data4, cmd_data5], none)
              | some r5 =>
                match process_data r5 with
                | none => ([cmd_data2, cmd_data3, cmd_data4, cmd_data5], none)
                | some cal_thru =>
                  match ask cmd_data6 with
                  | none =>
                    ([cmd_data2, cmd_data3, cmd_data4, cmd_data5, cmd_data6], none)
                  | some r6 =>
                    match process_data r6 with
                    | none =>
                      ([cmd_data2, cmd_data3, cmd_data4, cmd_data5, cmd_data6], none)
                    | some cal_isoln =>
                      ([cmd_data2, cmd_data3, cmd_data4, cmd_data5, cmd_data6],
                       some [(("load").data, cal_load), (("open").data, cal_open),
                             (("short").data, cal_short), (("thru").data, cal_thru),
                             (("isoln").data, cal_isoln)])

/-- Modelled from the spec: `pymeasure.instruments.validators.strict_discrete_set`
is not under `src/`; per the spec a setting value outside its declared discrete
set is rejected with a ValidationError (`none`) before any write occurs, and a
value in the set is passed through. -/
def strict_discrete_set (v : ℤ) (values : List ℤ) : Option ℤ :=
  if v ∈ values then some v else none

/-- Discrete set of admissible `power` values, from
`Instrument.setting('power %d', ..., values=[-1, 0, 1, 2, 3])`. -/
def power_values : List ℤ := [-1, 0, 1, 2, 3]

/-- Decimal digit string of a natural number, as `%d` renders it. -/
def natToDec (n : ℕ) : Str :=
  if h : n < 10 then [Char.ofNat (48 + n)]
  else natToDec (n / 10) ++ [Char.ofNat (48 + n % 10)]
termination_by n
decreasing_by
  omega

/-- Decimal rendering of an integer, as Python `'%d' % v` renders it. -/
def intToDec (v : ℤ) : Str :=
  if v < 0 then '-' :: natToDec v.natAbs else natToDec v.natAbs

/-- Modelled from the spec: the `power` setter built by
`Instrument.setting('power %d', validator=strict_discrete_set,
values=[-1, 0, 1, 2, 3])` (the `Instrument.setting` machinery is not under
`src/`).  The validator runs first; only a validated value is formatted with
`'power %d'` and written.  `some s` means the command line `s` was written,
`none` means a ValidationError with no write. -/
def set_power (v : ℤ) : Option Str :=
  match strict_discrete_set v power_values with
  | none => none
  | some x => some (("power ").data ++ intToDec x)

/-! Lemmas about the scanning primitives. -/

theorem startsWith_iff {p s : Str} : startsWith p s = true ↔ p <+: s := by
  induction p generalizing s with
  | nil => simp [startsWith]
  | cons a ps ih =>
    cases s with
    | nil => simp [startsWith]
    | cons c cs => simp [startsWith, List.cons_prefix_cons, ih]

theorem startsWith_append_self (p t : Str) : startsWith p (p ++ t) = true :=
  startsWith_iff.mpr (List.prefix_append p t)

/-- Decomposes a prefix of an append: either it stops inside `s`, or it swallows
all of `s` and its remainder is a prefix of `t`. -/
theorem prefix_append_cases {p s t : Str} (h : p <+: s ++ t) :
    p <+: s ∨ (s <+: p ∧ p.drop s.length <+: t) := by
  induction s generalizing p with
  | nil => exact Or.inr ⟨List.nil_prefix, h⟩
  | cons c cs ih =>
    cases p with
    | nil => exact Or.inl List.nil_prefix
    | cons a ps =>
      rw [List.cons_append, List.cons_prefix_cons] at h
      rcases ih h.2 with h1 | h2
      · exact Or.inl (List.cons_prefix_cons.mpr ⟨h.1, h1⟩)
      · exact Or.inr ⟨List.cons_prefix_cons.mpr ⟨h.1.symm, h2.1⟩, h2.2⟩

/-- Decomposes a suffix of an append: either it is a suffix of `t`, or it is a
(nonempty-head) suffix of `s` glued to all of `t`. -/
theorem suffix_append_cases {v s t : Str} (h : v <:+ s ++ t) :
    v <:+ t ∨ ∃ s₂, s₂ <:+ s ∧ v = s₂ ++ t := by
  induction s with
  | nil => exact Or.inl h
  | cons c cs ih =>
    rw [List.cons_append, List.suffix_cons_iff] at h
    rcases h with rfl | h
    · exact Or.inr ⟨c :: cs, List.suffix_refl _, rfl⟩
    · rcases ih h with h1 | ⟨s₂, hs₂, rfl⟩
      · exact Or.inl h1
      · exact Or.inr ⟨s₂, hs₂.trans (List.suffix_cons c cs), rfl⟩

theorem containsSub_of_suffix {pat s v : Str} (hv : v <:+ s)
    (hw : startsWith pat v = true) : containsSub pat s = true := by
  induction s with
  | nil =>
    rcases List.suffix_nil.mp hv with rfl
    simpa [containsSub] using hw
  | cons c cs ih =>
    rcases List.suffix_cons_iff.mp hv with rfl | hv'
    · simp [containsSub, hw]
    · simp [containsSub, ih hv']

/-- Scan-cleanliness: no nonempty suffix of `u`, continued by `t`, starts with
`pat`.  This is the condition under which the leftmost-occurrence scans of
`replaceStr` and `splitStr` pass over `u` without firing. -/
def cleanFor (pat u t : Str) : Prop :=
  ∀ v, v <:+ u → v ≠ [] → startsWith pat (v ++ t) = false

theorem cleanFor_append {pat a b t : Str} (ha : cleanFor pat a (b ++ t))
    (hb : cleanFor pat b t) : cleanFor pat (a ++ b) t := by
  intro v hv hne
  rcases suffix_append_cases hv with h1 | ⟨s₂, hs₂, rfl⟩
  · exact hb v h1 hne
  · rcases s₂ with _ | ⟨c, cs⟩
    · exact hb b (List.suffix_refl b) (by simpa using hne)
    · have := ha (c :: cs) hs₂ (by simp)
      simpa [List.append_assoc] using this

theorem cleanFor_of_firstChar {p : Char} {ps u t : Str}
    (hu : ∀ c ∈ u, c ≠ p) : cleanFor (p :: ps) u t := by
  intro v hv hne
  rcases v with _ | ⟨c, cs⟩
  · exact absurd rfl hne
  · have hc : c ∈ u := hv.subset (by simp)
    simp only [List.cons_append, startsWith]
    have : (p == c) = false := by
      simpa using fun hpc => (hu c hc) hpc.symm
    simp [this]

theorem cleanFor_of_not_containsSub {pat u : Str} {d : Char} {t : Str}
    (hpat : pat ≠ []) (hno : containsSub pat u = false) (hd : d ∉ pat) :
    cleanFor pat u (d :: t) := by
  intro v hv hne
  by_contra hsw
  have hpre : pat <+: v ++ (d :: t) :=
    startsWith_iff.mp (by simpa using Bool.not_eq_false _ ▸ hsw)
  rcases prefix_append_cases hpre with h1 | ⟨h2, h3⟩
  · exact absurd (containsSub_of_suffix hv (startsWith_iff.mpr h1)) (by simp [hno])
  · by_cases hlen : pat.length ≤ v.length
    · have hvp : v = pat := h2.eq_of_length (le_antisymm h2.length_le hlen)
      subst hvp
      exact absurd (containsSub_of_suffix hv (startsWith_iff.mpr (List.prefix_refl _)))
        (by simp [hno])
    · have hdrop : pat.drop v.length ≠ [] := by
        intro hnil
        have := List.drop_eq_nil_iff.mp hnil
        omega
      rcases hd' : pat.drop v.length with _ | ⟨e, es⟩
      · exact hdrop hd'
      · rw [hd'] at h3
        have he : e = d := (List.cons_prefix_cons.mp h3).1
        have : e ∈ pat := List.drop_subset v.length pat (by simp [hd'])
        exact hd (he ▸ this)

theorem cleanFor_nil (pat t : Str) : cleanFor pat [] t := by
  intro v hv hne
  exact absurd (List.suffix_nil.mp hv) hne

/-! Equations and traversal lemmas for `replaceStr` and `splitStr`. -/

theorem replaceStr_nil (old new : Str) : replaceStr old new [] = [] := by
  simp [replaceStr]

theorem replaceStr_cons_pos {old : Str} (new : Str) {c : Char} {cs : Str}
    (h1 : startsWith old (c :: cs) = true) (h2 : old ≠ []) :
    replaceStr old new (c :: cs)
      = new ++ replaceStr old new ((c :: cs).drop old.length) := by
  rw [replaceStr]
  simp [h1, h2]

theorem replaceStr_cons_neg {old : Str} (new : Str) {c : Char} {cs : Str}
    (h : startsWith old (c :: cs) = false) :
    replaceStr old new (c :: cs) = c :: replaceStr old new cs := by
  rw [replaceStr]
  simp [h]

theorem replaceStr_append_of_cleanFor {old new u t : Str} (h : cleanFor old u t) :
    replaceStr old new (u ++ t) = u ++ replaceStr old new t := by
  induction u with
  | nil => simp
  | cons c us ih =>
    have hsw : startsWith old (c :: (us ++ t)) = false :=
      h (c :: us) (List.suffix_refl _) (by simp)
    have h' : cleanFor old us t := fun v hv hne => h v (hv.trans (List.suffix_cons c us)) hne
    rw [List.cons_append, replaceStr_cons_neg new hsw, ih h', List.cons_append]

theorem replaceStr_self {old : Str} (new : Str) (h : old ≠ []) :
    replaceStr old new old = new := by
  rcases hold : old with _ | ⟨c, cs⟩
  · exact absurd hold h
  · have h1 : startsWith (c :: cs) (c :: cs) = true := by
      simpa using startsWith_append_self (c :: cs) []
    rw [replaceStr_cons_pos new h1 (by simp)]
    rw [show (c :: cs).drop (c :: cs).length = [] from List.drop_length _]
    rw [replaceStr_nil, List.append_nil]

theorem replaceStr_of_not_containsSub {old new s : Str}
    (h : containsSub old s = false) : replaceStr old new s = s := by
  induction s with
  | nil => simp [replaceStr]
  | cons c cs ih =>
    simp only [containsSub, Bool.or_eq_false_iff] at h
    rw [replaceStr_cons_neg new h.1, ih h.2]

theorem splitStr_nil (sep : Str) : splitStr sep [] = [[]] := by
  simp [splitStr]

theorem splitStr_ne_nil (sep s : Str) : splitStr sep s ≠ [] := by
  cases s with
  | nil => simp [splitStr]
  | cons c cs =>
    rw [splitStr]
    by_cases h : startsWith sep (c :: cs) = true ∧ sep ≠ []
    · simp [h]
    · rcases hs : splitStr sep cs with _ | ⟨seg, rest⟩ <;> simp [h, hs]

theorem splitStr_cons_pos {sep : Str} {c : Char} {cs : Str}
    (h1 : startsWith sep (c :: cs) = true) (h2 : sep ≠ []) :
    splitStr sep (c :: cs) = [] :: splitStr sep ((c :: cs).drop sep.length) := by
  rw [splitStr]
  simp [h1, h2]

theorem splitStr_cons_neg {sep : Str} {c : Char} {cs : Str}
    (h : startsWith sep (c :: cs) = false) :
    splitStr sep (c :: cs) = (splitStr sep cs).modifyHead (fun seg => c :: seg) := by
  rcases hs : splitStr sep cs with _ | ⟨seg, rest⟩
  · exact absurd hs (splitStr_ne_nil sep cs)
  · rw [splitStr]
    simp [h, hs]

theorem splitStr_sep_append {sep : Str} (h : sep ≠ []) (rest : Str) :
    splitStr sep (sep ++ rest) = [] :: splitStr sep rest := by
  rcases sep with _ | ⟨p, ps⟩
  · exact absurd rfl h
  · rw [List.cons_append,
      splitStr_cons_pos (by exact startsWith_append_self (p :: ps) rest) (by simp)]
    congr 1
    rw [show p :: (ps ++ rest) = (p :: ps) ++ rest from rfl, List.drop_left]

theorem splitStr_append_of_cleanFor {sep u t : Str} (h : cleanFor sep u t) :
    splitStr sep (u ++ t) = (splitStr sep t).modifyHead (fun seg => u ++ seg) := by
  induction u with
  | nil =>
    rcases hs : splitStr sep t with _ | ⟨seg, rest⟩
    · exact absurd hs (splitStr_ne_nil sep t)
    · simp [hs]
  | cons c us ih =>
    have hsw : startsWith sep (c :: (us ++ t)) = false :=
      h (c :: us) (List.suffix_refl _) (by simp)
    have h' : cleanFor sep us t := fun v hv hne => h v (hv.trans (List.suffix_cons c us)) hne
    rw [List.cons_append, splitStr_cons_neg hsw, ih h']
    rcases hs : splitStr sep t with _ | ⟨seg, rest⟩
    · exact absurd hs (splitStr_ne_nil sep t)
    · simp [hs]

theorem splitStr_of_not_containsSub {sep s : Str}
    (h : containsSub sep s = false) : splitStr sep s = [s] := by
  induction s with
  | nil => simp [splitStr]
  | cons c cs ih =>
    simp only [containsSub, Bool.or_eq_false_iff] at h
    rw [splitStr_cons_neg h.1, ih h.2]
    simp

/-! Lemmas about the specific frame shape of the NanoVNA shell. -/

theorem echo_termination_eq : echo_termination = ['\r', '\n'] := rfl

theorem prompt_marker_eq : prompt_marker = ['c', 'h', '>', ' '] := rfl

theorem echo_termination_ne_nil : echo_termination ≠ [] := by decide

theorem prompt_marker_ne_nil : prompt_marker ≠ [] := by decide

theorem cleanFor_echo_of_no_cr {u : Str} (hu : ∀ c ∈ u, c ≠ '\r') (t : Str) :
    cleanFor echo_termination u t := by
  rw [echo_termination_eq]
  exact cleanFor_of_firstChar hu

theorem cleanFor_prompt_of_no_c {u : Str} (hu : ∀ c ∈ u, c ≠ 'c') (t : Str) :
    cleanFor prompt_marker u t := by
  rw [prompt_marker_eq]
  exact cleanFor_of_firstChar hu

theorem cleanFor_prompt_after_cr {u t : Str}
    (hno : containsSub prompt_marker u = false) :
    cleanFor prompt_marker u ('\r' :: t) :=
  cleanFor_of_not_containsSub prompt_marker_ne_nil hno (by decide)

theorem splitStr_joinStr_lines : ∀ (lines : List Str), lines ≠ [] →
    (∀ l ∈ lines, ∀ c ∈ l, c ≠ '\r') →
    splitStr echo_termination (joinStr echo_termination lines ++ echo_termination)
      = lines ++ [[]]
  | [], hne, _ => absurd rfl hne
  | [l], _, hcr => by
    have hclean : cleanFor echo_termination l echo_termination :=
      cleanFor_echo_of_no_cr (hcr l (by simp)) _
    rw [show joinStr echo_termination [l] = l from rfl,
      splitStr_append_of_cleanFor hclean]
    have h2 := splitStr_sep_append echo_termination_ne_nil ([] : Str)
    rw [List.append_nil, splitStr_nil] at h2
    rw [h2]
    simp
  | l :: l₂ :: ls', _, hcr => by
    have hclean : cleanFor echo_termination l
        (echo_termination ++ (joinStr echo_termination (l₂ :: ls') ++ echo_termination)) :=
      cleanFor_echo_of_no_cr (hcr l (by simp)) _
    have e : joinStr echo_termination (l :: l₂ :: ls') ++ echo_termination
        = l ++ (echo_termination
            ++ (joinStr echo_termination (l₂ :: ls') ++ echo_termination)) := by
      rw [show joinStr echo_termination (l :: l₂ :: ls')
          = l ++ echo_termination ++ joinStr echo_termination (l₂ :: ls') from rfl]
      simp [List.append_assoc]
    rw [e, splitStr_append_of_cleanFor hclean,
      splitStr_sep_append echo_termination_ne_nil,
      splitStr_joinStr_lines (l₂ :: ls') (by simp)
        (fun l' hl' => hcr l' (by simp [hl']))]
    simp

theorem cleanFor_prompt_join (t : Str) : ∀ (lines : List Str),
    (∀ l ∈ lines, containsSub prompt_marker l = false) →
    cleanFor prompt_marker (joinStr echo_termination lines) ('\r' :: t)
  | [], _ => cleanFor_nil _ _
  | [l], h => cleanFor_prompt_after_cr (h l (by simp))
  | l :: l₂ :: ls', h => by
    have h1 : cleanFor prompt_marker l
        (echo_termination ++ (joinStr echo_termination (l₂ :: ls') ++ ('\r' :: t))) :=
      cleanFor_prompt_after_cr (h l (by simp))
    have h2 : cleanFor prompt_marker echo_termination
        (joinStr echo_termination (l₂ :: ls') ++ ('\r' :: t)) :=
      cleanFor_prompt_of_no_c (by decide) _
    have h3 := cleanFor_prompt_join t (l₂ :: ls') (fun l' hl' => h l' (by simp [hl']))
    have h12 := cleanFor_append (by simpa [List.append_assoc] using h1) h2
    have h123 := cleanFor_append (by simpa [List.append_assoc] using h12) h3
    show cleanFor prompt_marker
        (l ++ echo_termination ++ joinStr echo_termination (l₂ :: ls')) ('\r' :: t)
    simpa [List.append_assoc] using h123

/-- Cleanliness of the whole pre-prompt body of a well-formed frame with respect
to the prompt marker: the `replaceStr` scan never fires before the final
trailing `'ch> '`. -/
theorem cleanFor_prompt_frame {cmd : Str} {lines : List Str}
    (hcmd : containsSub prompt_marker cmd = false)
    (hlines : ∀ l ∈ lines, containsSub prompt_marker l = false) :
    cleanFor prompt_marker
      (cmd ++ echo_termination ++ joinStr echo_termination lines ++ echo_termination)
      prompt_marker := by
  have h4 : cleanFor prompt_marker echo_termination prompt_marker :=
    cleanFor_prompt_of_no_c (by decide) _
  have h3 : cleanFor prompt_marker (joinStr echo_termination lines)
      (echo_termination ++ prompt_marker) := by
    have := cleanFor_prompt_join ('\n' :: prompt_marker) lines hlines
    simpa [echo_termination_eq] using this
  have h2 : cleanFor prompt_marker echo_termination
      (joinStr echo_termination lines ++ (echo_termination ++ prompt_marker)) :=
    cleanFor_prompt_of_no_c (by decide) _
  have h1 : cleanFor prompt_marker cmd
      (echo_termination ++ (joinStr echo_termination lines
        ++ (echo_termination ++ prompt_marker))) := by
    have := cleanFor_prompt_after_cr
      (t := '\n' :: (joinStr echo_termination lines ++ (echo_termination ++ prompt_marker)))
      hcmd
    simpa [echo_termination_eq] using this
  have h12 := cleanFor_append (by simpa [List.append_assoc] using h1) h2
  have h123 := cleanFor_append (by simpa [List.append_assoc] using h12) h3
  have h1234 := cleanFor_append (by simpa [List.append_assoc] using h123) h4
  simpa [List.append_assoc] using h1234

/-! Claim theorems for the transport scrubber. -/

/-- C1: for every raw frame of the form `<cmd>\r\n<line1>\r\n...\r\n<lineN>\r\nch> `
(with the command echo and each interior line free of embedded CR characters and
of the prompt marker, so the frame is well formed), `_read_echo` removes every
occurrence of the prompt marker `"ch> "`, splits on `"\r\n"`, discards exactly
the first segment (the command echo) and the last segment (the trailing empty
segment), and joins the remaining interior segments with `","` — for any number
of interior segments. -/
theorem read_echo_scrubs_frame (cmd : Str) (lines : List Str)
    (hne : lines ≠ [])
    (hcmd_cr : ∀ c ∈ cmd, c ≠ '\r')
    (hcmd_p : containsSub prompt_marker cmd = false)
    (hlines_cr : ∀ l ∈ lines, ∀ c ∈ l, c ≠ '\r')
    (hlines_p : ∀ l ∈ lines, containsSub prompt_marker l = false) :
    read_echo (cmd ++ echo_termination ++ joinStr echo_termination lines
      ++ echo_termination ++ prompt_marker) = joinStr [','] lines := by
  have hbody := @replaceStr_append_of_cleanFor prompt_marker [] _ _
    (cleanFor_prompt_frame hcmd_p hlines_p)
  rw [read_echo, hbody, replaceStr_self _ prompt_marker_ne_nil, List.append_nil]
  have e : cmd ++ echo_termination ++ joinStr echo_termination lines ++ echo_termination
      = cmd ++ (echo_termination
          ++ (joinStr echo_termination lines ++ echo_termination)) := by
    simp [List.append_assoc]
  rw [e, splitStr_append_of_cleanFor (cleanFor_echo_of_no_cr hcmd_cr _),
    splitStr_sep_append echo_termination_ne_nil,
    splitStr_joinStr_lines lines hne hlines_cr]
  simp [List.dropLast_concat]

/-- C1 witness: the synthetic frame `"data 0\r\n1 2\r\n3 4\r\nch> "` scrubs to
`"1 2,3 4"`, by the C1 theorem applied at that concrete frame. -/
theorem read_echo_scrubs_frame_witness :
    read_echo (("data 0").data ++ echo_termination
      ++ joinStr echo_termination [("1 2").data, ("3 4").data]
      ++ echo_termination ++ prompt_marker)
      = joinStr [','] [("1 2").data, ("3 4").data] :=
  read_echo_scrubs_frame (("data 0").data) [("1 2").data, ("3 4").data]
    (by decide) (by decide) (by decide) (by decide) (by decide)

/-- C2 (amended): a raw frame whose prompt-scrubbed text splits into fewer than
2 segments makes `_read_echo` silently return the empty string — the `[1:-1]`
slice of a short list is empty and the join of the empty list is `""`; the
source raises no FramingError. -/
theorem read_echo_short_frame_silent (raw : Str)
    (h : (splitStr echo_termination (replaceStr prompt_marker [] raw)).length < 2) :
    read_echo raw = [] := by
  rw [read_echo]
  rcases hs : splitStr echo_termination (replaceStr prompt_marker [] raw)
    with _ | ⟨a, rest⟩
  · simp [joinStr]
  · rcases rest with _ | ⟨b, rest'⟩
    · simp [joinStr]
    · rw [hs] at h
      simp at h
      omega

/-- C2 counterexample: the frame `"data 0ch> "` scrubs to a single segment, and
`_read_echo` returns a result (the empty string) instead of failing with a
FramingError as the claim states. -/
theorem read_echo_short_frame_counterexample :
    read_echo (("data 0ch> ").data) = [] := by
  simp +decide [read_echo, replaceStr, splitStr, joinStr, prompt_marker_eq, echo_termination_eq]

/-- C2 witness: the frame `"ch> "` scrubs to one segment (fewer than 2), and the
amended theorem applies to it. -/
theorem read_echo_short_frame_silent_witness :
    (splitStr echo_termination (replaceStr prompt_marker [] (("ch> ").data))).length < 2
      ∧ read_echo (("ch> ").data) = [] :=
  ⟨by simp +decide [replaceStr, splitStr, prompt_marker_eq, echo_termination_eq],
   read_echo_short_frame_silent _ (by simp +decide [replaceStr, splitStr, prompt_marker_eq, echo_termination_eq])⟩

/-- C3: when the prompt-scrubbed text of a raw frame contains no `"\r\n"` at
all, splitting yields exactly one segment, the `[1:-1]` slice of that
one-element list is empty, and `_read_echo` returns the empty string without
raising any error. -/
theorem read_echo_no_crlf (raw : Str)
    (h : containsSub echo_termination (replaceStr prompt_marker [] raw) = false) :
    read_echo raw = [] := by
  rw [read_echo, splitStr_of_not_containsSub h]
  simp [joinStr]

/-- C3 witness: the frame `"infoch> "` scrubs to text with no `"\r\n"`, and the
C3 theorem applies to it. -/
theorem read_echo_no_crlf_witness :
    containsSub echo_termination (replaceStr prompt_marker [] (("infoch> ").data)) = false
      ∧ read_echo (("infoch> ").data) = [] :=
  ⟨by simp +decide [replaceStr, prompt_marker_eq, echo_termination_eq],
   read_echo_no_crlf _ (by simp +decide [replaceStr, prompt_marker_eq, echo_termination_eq])⟩

/-! Lemmas about numeric decoding. -/

theorem parseFloats_length {ts : List Str} {xs : List ℚ}
    (h : parseFloats ts = some xs) : xs.length = ts.length := by
  induction ts generalizing xs with
  | nil =>
    simp only [parseFloats, Option.some_inj] at h
    simp [← h]
  | cons t ts ih =>
    simp only [parseFloats] at h
    rcases hx : parseFloat t with _ | x <;> rw [hx] at h
    · simp at h
    · rcases hxs : parseFloats ts with _ | xs' <;> rw [hxs] at h
      · simp at h
      · simp only [Option.some_inj] at h
        simp [← h, ih hxs]

theorem parseFloats_getD {ts : List Str} {xs : List ℚ}
    (h : parseFloats ts = some xs) :
    ∀ i, i < ts.length → parseFloat (ts.getD i []) = some (xs.getD i 0) := by
  induction ts generalizing xs with
  | nil => intro i hi; simp at hi
  | cons t ts ih =>
    simp only [parseFloats] at h
    rcases hx : parseFloat t with _ | x <;> rw [hx] at h
    · simp at h
    · rcases hxs : parseFloats ts with _ | xs' <;> rw [hxs] at h
      · simp at h
      · simp only [Option.some_inj] at h
        intro i hi
        cases i with
        | zero => simp [← h, hx]
        | succ n =>
          simp only [List.getD_cons_succ, ← h]
          exact ih hxs n (by simpa using hi)

theorem parseFloats_none {ts : List Str} {t : Str} (ht : t ∈ ts)
    (hp : parseFloat t = none) : parseFloats ts = none := by
  induction ts with
  | nil => simp at ht
  | cons u ts ih =>
    rcases List.mem_cons.mp ht with rfl | hmem
    · simp [parseFloats, hp]
    · simp only [parseFloats, ih hmem]
      rcases parseFloat u with _ | x <;> rfl

theorem sliceEvens_length {α : Type} : ∀ (xs : List α),
    (sliceEvens xs).length = (xs.length + 1) / 2
  | [] => by simp [sliceEvens]
  | [x] => by simp [sliceEvens]
  | x :: y :: rest => by
    simp only [sliceEvens, List.length_cons, sliceEvens_length rest]
    omega

theorem sliceOdds_length {α : Type} : ∀ (xs : List α),
    (sliceOdds xs).length = xs.length / 2
  | [] => by simp [sliceOdds]
  | [x] => by simp [sliceOdds]
  | x :: y :: rest => by
    simp only [sliceOdds, List.length_cons, sliceOdds_length rest]
    omega

theorem sliceEvens_getD {α : Type} (d : α) : ∀ (xs : List α) (i : ℕ),
    (sliceEvens xs).getD i d = xs.getD (2 * i) d
  | [], i => by simp [sliceEvens]
  | [x], i => by
    cases i with
    | zero => rfl
    | succ n =>
      rw [show sliceEvens [x] = [x] from rfl,
        List.getD_eq_default _ _ (by simp),
        List.getD_eq_default _ _ (by simp; omega)]
  | x :: y :: rest, i => by
    cases i with
    | zero => rfl
    | succ n =>
      rw [show 2 * (n + 1) = 2 * n + 1 + 1 by ring]
      simp only [sliceEvens, List.getD_cons_succ]
      exact sliceEvens_getD d rest n

theorem sliceOdds_getD {α : Type} (d : α) : ∀ (xs : List α) (i : ℕ),
    (sliceOdds xs).getD i d = xs.getD (2 * i + 1) d
  | [], i => by simp [sliceOdds]
  | [x], i => by
    rw [show sliceOdds [x] = ([] : List α) from rfl,
      List.getD_eq_default _ _ (by simp),
      List.getD_eq_default _ _ (by simp)]
  | x :: y :: rest, i => by
    cases i with
    | zero => rfl
    | succ n =>
      rw [show 2 * (n + 1) + 1 = (2 * n + 1) + 1 + 1 by ring]
      simp only [sliceOdds, List.getD_cons_succ]
      exact sliceOdds_getD d rest n

theorem zip_getD {α β : Type} (d₁ : α) (d₂ : β) : ∀ (as : List α) (bs : List β) (i : ℕ),
    i < as.length → i < bs.length →
    (as.zip bs).getD i (d₁, d₂) = (as.getD i d₁, bs.getD i d₂)
  | [], _, i, h, _ => absurd h (by simp)
  | _ :: _, [], i, _, h => absurd h (by simp)
  | a :: as, b :: bs, 0, _, _ => rfl
  | a :: as, b :: bs, i + 1, h1, h2 => by
    simp only [List.zip_cons_cons, List.getD_cons_succ]
    exact zip_getD d₁ d₂ as bs i (by simpa using h1) (by simpa using h2)

/-- Decoding a reply with an even number of numeric tokens pairs them up as
interleaved (real, imaginary) parts. -/
theorem process_data_even {data : Str} {xs : List ℚ} {k : ℕ}
    (hparse : parseFloats (splitStr [','] (replaceStr [' '] [','] data)) = some xs)
    (hlen : xs.length = 2 * k) :
    ∃ r, process_data data = some r ∧ r.length = k ∧
      ∀ i, i < k → r.getD i (0, 0) = (xs.getD (2 * i) 0, xs.getD (2 * i + 1) 0) := by
  have he : (sliceEvens xs).length = k := by
    rw [sliceEvens_length xs, hlen]; omega
  have ho : (sliceOdds xs).length = k := by
    rw [sliceOdds_length xs, hlen]; omega
  refine ⟨(sliceEvens xs).zip (sliceOdds xs), ?_, ?_, ?_⟩
  · simp only [process_data, hparse]
    simp [broadcastPairs, he, ho]
  · simp [List.length_zip, he, ho]
  · intro i hi
    rw [zip_getD 0 0 _ _ i (by omega) (by omega), sliceEvens_getD, sliceOdds_getD]

/-- C4: for every scrubbed reply whose tokens (spaces and commas interchangeable
as delimiters) form an even-length sequence of `2 * k` numeric values `t`,
`get_S11_data` / `get_S21_data` (via `_process_data`) return the complex
sequence of length `k` with `result[i] = t[2i] + j * t[2i+1]`, modelled as the
pair `(t[2i], t[2i+1])`. -/
theorem s_data_decodes_pairs (ask : Str → Option Str) (R : Str) (xs : List ℚ) (k : ℕ)
    (hparse : parseFloats (splitStr [','] (replaceStr [' '] [','] R)) = some xs)
    (hlen : xs.length = 2 * k) :
    (ask cmd_data0 = some R → ∃ r, get_S11_data ask = some r ∧ r.length = k ∧
      ∀ i, i < k → r.getD i (0, 0) = (xs.getD (2 * i) 0, xs.getD (2 * i + 1) 0))
    ∧ (ask cmd_data1 = some R → ∃ r, get_S21_data ask = some r ∧ r.length = k ∧
      ∀ i, i < k → r.getD i (0, 0) = (xs.getD (2 * i) 0, xs.getD (2 * i + 1) 0)) := by
  obtain ⟨r, hr, hrl, hrp⟩ := process_data_even hparse hlen
  constructor <;> intro h
  · exact ⟨r, by simp only [get_S11_data, h, hr], hrl, hrp⟩
  · exact ⟨r, by simp only [get_S21_data, h, hr], hrl, hrp⟩

/-- C4 witness: on the reply `"1.0 2.0,3.0 -1.0"` (tokens 1.0, 2.0, 3.0, -1.0),
`get_S11_data` yields the two pairs (1, 2) and (3, -1), i.e.
`[1.0+2.0j, 3.0-1.0j]`, by the C4 theorem applied at that concrete reply. -/
theorem s_data_decodes_pairs_witness :
    ∃ r, get_S11_data (fun _ => some (("1.0 2.0,3.0 -1.0").data)) = some r ∧
      r.length = 2 ∧ ∀ i, i < 2 → r.getD i (0, 0)
        = (([(1 : ℚ), 2, 3, -1]).getD (2 * i) 0, ([(1 : ℚ), 2, 3, -1]).getD (2 * i + 1) 0) :=
  (s_data_decodes_pairs _ (("1.0 2.0,3.0 -1.0").data) [1, 2, 3, -1] 2
    (by simp +decide [replaceStr, splitStr, parseFloats, parseFloat, parseUnsigned,
      takeDigits, digitsVal])
    (by decide)).1 rfl

/-- C5: for every comma-delimited reply, `get_frequencies` returns the ordered
sequence of the tokens parsed as floats, and fails when any token is
non-numeric. -/
theorem get_frequencies_decodes (ask : Str → Option Str) (R : Str)
    (hask : ask cmd_frequencies = some R) :
    (∀ xs, parseFloats (splitStr [','] R) = some xs →
      get_frequencies ask = some xs ∧ xs.length = (splitStr [','] R).length ∧
      ∀ i, i < xs.length → parseFloat ((splitStr [','] R).getD i []) = some (xs.getD i 0))
    ∧ (∀ t ∈ splitStr [','] R, parseFloat t = none → get_frequencies ask = none) := by
  constructor
  · intro xs hp
    refine ⟨by simp only [get_frequencies, hask, process_frequencies, hp], ?_, ?_⟩
    · exact parseFloats_length hp
    · intro i hi
      exact parseFloats_getD hp i (by rw [← parseFloats_length hp]; exact hi)
  · intro t ht hp
    simp only [get_frequencies, hask, process_frequencies, parseFloats_none ht hp]

/-- C5 witness: on the reply `"1000000,2000000,3000000"`, `get_frequencies`
yields `[1.0e6, 2.0e6, 3.0e6]`, by the C5 theorem applied at that concrete
reply. -/
theorem get_frequencies_decodes_witness :
    get_frequencies (fun _ => some (("1000000,2000000,3000000").data))
      = some [(1000000 : ℚ), 2000000, 3000000] :=
  (((get_frequencies_decodes _ (("1000000,2000000,3000000").data) rfl).1
    [1000000, 2000000, 3000000]
    (by simp +decide [splitStr, parseFloats, parseFloat, parseUnsigned,
      takeDigits, digitsVal]))).1

/-- C9 (amended): decoding a reply with an odd number of tokens fails only when
neither even/odd slice is numpy-broadcastable, i.e. for odd token counts of at
least 5; odd counts of 1 and 3 are silently broadcast instead (see the
counterexample). -/
theorem process_data_odd_ge5_none (data : Str)
    (hodd : (splitStr [','] (replaceStr [' '] [','] data)).length % 2 = 1)
    (h5 : 5 ≤ (splitStr [','] (replaceStr [' '] [','] data)).length) :
    process_data data = none := by
  rw [process_data]
  rcases hp : parseFloats (splitStr [','] (replaceStr [' '] [','] data)) with _ | xs
  · rfl
  · have hlen := parseFloats_length hp
    have he := sliceEvens_length xs
    have ho := sliceOdds_length xs
    have h1 : (sliceEvens xs).length ≠ (sliceOdds xs).length := by omega
    have h2 : (sliceOdds xs).length ≠ 1 := by omega
    have h3 : (sliceEvens xs).length ≠ 1 := by omega
    simp [broadcastPairs, h1, h2, h3]

/-- C9 counterexample: the reply `"1 2 3"` has an odd number (3) of numeric
tokens, yet `_process_data` returns a result — numpy broadcasts the length-1
odd slice, yielding `[1+2j, 3+2j]` — instead of failing as the claim states. -/
theorem process_data_odd_counterexample :
    process_data (("1 2 3").data) = some [((1 : ℚ), (2 : ℚ)), (3, 2)] := by
  simp +decide [process_data, replaceStr, splitStr, parseFloats, parseFloat,
    parseUnsigned, takeDigits, digitsVal, sliceEvens, sliceOdds, broadcastPairs]

/-- C9 witness: the reply `"1 2 3 4 5"` has 5 tokens (odd, at least 5), and the
amended theorem applies to it. -/
theorem process_data_odd_ge5_none_witness :
    (splitStr [','] (replaceStr [' '] [','] (("1 2 3 4 5").data))).length % 2 = 1
      ∧ 5 ≤ (splitStr [','] (replaceStr [' '] [','] (("1 2 3 4 5").data))).length
      ∧ process_data (("1 2 3 4 5").data) = none :=
  ⟨by simp +decide [replaceStr, splitStr],
   by simp +decide [replaceStr, splitStr],
   process_data_odd_ge5_none _ (by simp +decide [replaceStr, splitStr])
     (by simp +decide [replaceStr, splitStr])⟩

/-- Single-character replacement is a pointwise character map. -/
theorem replaceStr_single {a b : Char} : ∀ (s : Str),
    replaceStr [a] [b] s = s.map (fun c => if c = a then b else c)
  | [] => by simp [replaceStr]
  | c :: cs => by
    by_cases h : c = a
    · subst h
      rw [replaceStr_cons_pos [b] (by simp [startsWith]) (by simp)]
      simp [replaceStr_single cs]
    · rw [replaceStr_cons_neg [b]
        (by simp [startsWith, Ne.symm h])]
      simp [replaceStr_single cs, h]

/-- C10: delimiter normalization in `_process_data` makes space and comma
interchangeable — decoding any string yields exactly the same result as
decoding the string with every space replaced by a comma, because
`_process_data` first rewrites all spaces to commas. -/
theorem process_data_space_comma (s : Str) :
    process_data (replaceStr [' '] [','] s) = process_data s := by
  have hidem : replaceStr [' '] [','] (replaceStr [' '] [','] s)
      = replaceStr [' '] [','] s := by
    rw [replaceStr_single s, replaceStr_single (List.map _ s), List.map_map]
    congr 1
    funext c
    by_cases h : c = ' ' <;> simp [Function.comp, h]
  rw [process_data, process_data, hidem]

/-! Claim theorems for `get_cals` and the `power` setter. -/

/-- C6: a call to `get_cals` in which all five sub-requests succeed issues
exactly the 5 asks `"data 2"` .. `"data 6"` in that order, and returns the
insertion-ordered mapping with keys load, open, short, thru, isoln, the k-th
value being the decoded reply of the k-th request. -/
theorem get_cals_success (ask : Str → Option Str)
    (r2 r3 r4 r5 r6 : Str) (v2 v3 v4 v5 v6 : List (ℚ × ℚ))
    (h2 : ask cmd_data2 = some r2) (p2 : process_data r2 = some v2)
    (h3 : ask cmd_data3 = some r3) (p3 : process_data r3 = some v3)
    (h4 : ask cmd_data4 = some r4) (p4 : process_data r4 = some v4)
    (h5 : ask cmd_data5 = some r5) (p5 : process_data r5 = some v5)
    (h6 : ask cmd_data6 = some r6) (p6 : process_data r6 = some v6) :
    get_cals ask = ([cmd_data2, cmd_data3, cmd_data4, cmd_data5, cmd_data6],
      some [(("load").data, v2), (("open").data, v3), (("short").data, v4),
            (("thru").data, v5), (("isoln").data, v6)]) := by
  simp only [get_cals, h2, p2, h3, p3, h4, p4, h5, p5, h6, p6]

/-- C6 witness: against a device whose every reply is `"1 2"`, `get_cals`
issues the five data commands in order and returns the five decoded entries in
insertion order, by the C6 theorem applied at that concrete oracle. -/
theorem get_cals_success_witness :
    get_cals (fun _ => some (("1 2").data))
      = ([cmd_data2, cmd_data3, cmd_data4, cmd_data5, cmd_data6],
         some [(("load").data, [((1 : ℚ), (2 : ℚ))]), (("open").data, [(1, 2)]),
               (("short").data, [(1, 2)]), (("thru").data, [(1, 2)]),
               (("isoln").data, [(1, 2)])]) := by
  have hp : process_data (("1 2").data) = some [((1 : ℚ), (2 : ℚ))] := by
    simp +decide [process_data, replaceStr, splitStr, parseFloats, parseFloat,
      parseUnsigned, takeDigits, digitsVal, sliceEvens, sliceOdds, broadcastPairs]
  exact get_cals_success _ _ _ _ _ _ _ _ _ _ _ rfl hp rfl hp rfl hp rfl hp rfl hp

/-- When `get_cals` returns a map, every one of the five ask/decode pipelines
must have succeeded. -/
theorem get_cals_pipeline_of_some {ask : Str → Option Str}
    (h : (get_cals ask).2 ≠ none) :
    ∀ c ∈ [cmd_data2, cmd_data3, cmd_data4, cmd_data5, cmd_data6],
      (ask c).bind process_data ≠ none := by
  rcases ha2 : ask cmd_data2 with _ | r2
  · simp [get_cals, ha2] at h
  rcases hp2 : process_data r2 with _ | v2
  · simp [get_cals, ha2, hp2] at h
  rcases ha3 : ask cmd_data3 with _ | r3
  · simp [get_cals, ha2, hp2, ha3] at h
  rcases hp3 : process_data r3 with _ | v3
  · simp [get_cals, ha2, hp2, ha3, hp3] at h
  rcases ha4 : ask cmd_data4 with _ | r4
  · simp [get_cals, ha2, hp2, ha3, hp3, ha4] at h
  rcases hp4 : process_data r4 with _ | v4
  · simp [get_cals, ha2, hp2, ha3, hp3, ha4, hp4] at h
  rcases ha5 : ask cmd_data5 with _ | r5
  · simp [get_cals, ha2, hp2, ha3, hp3, ha4, hp4, ha5] at h
  rcases hp5 : process_data r5 with _ | v5
  · simp [get_cals, ha2, hp2, ha3, hp3, ha4, hp4, ha5, hp5] at h
  rcases ha6 : ask cmd_data6 with _ | r6
  · simp [get_cals, ha2, hp2, ha3, hp3, ha4, hp4, ha5, hp5, ha6] at h
  rcases hp6 : process_data r6 with _ | v6
  · simp [get_cals, ha2, hp2, ha3, hp3, ha4, hp4, ha5, hp5, ha6, hp6] at h
  intro c hc
  simp only [List.mem_cons, List.not_mem_nil, or_false] at hc
  rcases hc with rfl | rfl | rfl | rfl | rfl
  · simp [ha2, hp2]
  · simp [ha3, hp3]
  · simp [ha4, hp4]
  · simp [ha5, hp5]
  · simp [ha6, hp6]

/-- C7: `get_cals` is all-or-nothing — if any one of the five ask/decode
pipelines for `"data 2"` .. `"data 6"` fails, the whole operation fails and no
partial mapping is returned. -/
theorem get_cals_all_or_nothing (ask : Str → Option Str)
    (h : ∃ c ∈ [cmd_data2, cmd_data3, cmd_data4, cmd_data5, cmd_data6],
      (ask c).bind process_data = none) :
    (get_cals ask).2 = none := by
  by_contra hne
  rcases h with ⟨c, hc, hfail⟩
  exact (get_cals_pipeline_of_some hne c hc) hfail

/-- C7 witness: against a device whose 3rd sub-request (`"data 4"`) raises,
`get_cals` returns no map, by the C7 theorem applied at that concrete oracle. -/
theorem get_cals_all_or_nothing_witness :
    (get_cals (fun c => if c = cmd_data4 then none else some (("1 2").data))).2
      = none :=
  get_cals_all_or_nothing _ ⟨cmd_data4, by simp, by simp⟩

/-- C8: setting `power` to an integer `v` validates against the discrete set
{-1, 0, 1, 2, 3} — a member is written as `power %d`, a non-member is rejected
(`none`) before any write occurs. -/
theorem set_power_validates (v : ℤ) :
    (v ∈ power_values → set_power v = some (("power ").data ++ intToDec v))
    ∧ (v ∉ power_values → set_power v = none) := by
  constructor <;> intro h <;> simp [set_power, strict_discrete_set, h]

/-- C8 witness: setting power to 2 writes `"power 2"`, and setting power to 5
(outside the set) issues no write, by the C8 theorem applied at 2 and 5. -/
theorem set_power_validates_witness :
    set_power 2 = some (("power 2").data) ∧ set_power 5 = none :=
  ⟨by rw [(set_power_validates 2).1 (by decide)]
      simp +decide [intToDec, natToDec],
   (set_power_validates 5).2 (by decide)⟩

end Nanovna
